import Mathlib

/-!
Verification of the 2D image sampling kernels declared in
`source/blender/blenlib/BLI_math_interp.hh`.

The nearest (point) samplers are defined inline in that header and are
embedded here directly.  Pixel memory is modelled as a total map from a
flat signed address to a sample value (`ℤ → ℚ` for float buffers,
`ℤ → ℕ` for byte buffers), mirroring the raw pointer arithmetic of the
source; `float` coordinate arithmetic is modelled over `ℚ`.  A sampler
returns the list of channel values it writes to its output.

The bilinear, cubic and EWA kernels, as well as the small helpers
`math::clamp` and `floored_fmod`, are only declared in the header (their
translation units are not part of the tree); those are modelled from the
specification and are marked as such in their doc comments.
-/

namespace blender

namespace math

/-- C-style cast of a `float` coordinate to `int`, as in `int x = int(u);`:
truncation toward zero. -/
def truncToInt (q : ℚ) : ℤ :=
  if 0 ≤ q then ⌊q⌋ else ⌈q⌉

/-- Modelled from the spec: `math::clamp` of `BLI_math_base.hh` (not under
the tree), `clamp(a, lo, hi) = min(max(a, lo), hi)`. -/
def clamp (a lo hi : ℤ) : ℤ :=
  min (max a lo) hi

/-- Modelled from the spec: `floored_fmod` of `BLI_math_base.h` (not under
the tree) — floor-based (not truncating) modulo `a - floor(a / b) * b`,
non-negative for positive `b` whatever the sign of `a`. -/
def floored_fmod (a b : ℚ) : ℚ :=
  a - ⌊a / b⌋ * b

/-- The per-axis integer texel index computed by the wrap samplers:
`u = floored_fmod(u, float(extent)); int x = int(u);`. -/
def wrap_index (u : ℚ) (extent : ℤ) : ℤ :=
  truncToInt (floored_fmod u (extent : ℚ))

/-- Texture coordinate wrapping mode (`InterpWrapMode` of the header). -/
inductive InterpWrapMode where
  | Extend
  | Repeat
  | Border
deriving DecidableEq

/-- Embeds `interpolate_nearest_border_byte` (output-pointer form): texel at
the truncated `(u, v)` index, transparent black outside the image. -/
def interpolate_nearest_border_byte (buffer : ℤ → ℕ) (width height : ℤ)
    (u v : ℚ) : List ℕ :=
  if truncToInt u < 0 ∨ width ≤ truncToInt u ∨ truncToInt v < 0 ∨ height ≤ truncToInt v then
    [0, 0, 0, 0]
  else
    [buffer ((width * truncToInt v + truncToInt u) * 4),
     buffer ((width * truncToInt v + truncToInt u) * 4 + 1),
     buffer ((width * truncToInt v + truncToInt u) * 4 + 2),
     buffer ((width * truncToInt v + truncToInt u) * 4 + 3)]

/-- Embeds the `uchar4`-returning overload of `interpolate_nearest_border_byte`,
which calls the output-pointer form on a fixed 4-byte result. -/
def interpolate_nearest_border_byte4 (buffer : ℤ → ℕ) (width height : ℤ)
    (u v : ℚ) : List ℕ :=
  interpolate_nearest_border_byte buffer width height u v

/-- Embeds `interpolate_nearest_border_fl` (output-pointer form, generic
channel count). -/
def interpolate_nearest_border_fl (buffer : ℤ → ℚ) (width height components : ℤ)
    (u v : ℚ) : List ℚ :=
  if truncToInt u < 0 ∨ width ≤ truncToInt u ∨ truncToInt v < 0 ∨ height ≤ truncToInt v then
    List.replicate components.toNat 0
  else
    (List.range components.toNat).map fun (i : ℕ) =>
      buffer ((width * truncToInt v + truncToInt u) * components + (i : ℤ))

/-- Embeds the `float4`-returning overload of `interpolate_nearest_border_fl`,
which calls the output-pointer form with `components = 4`. -/
def interpolate_nearest_border_fl4 (buffer : ℤ → ℚ) (width height : ℤ)
    (u v : ℚ) : List ℚ :=
  interpolate_nearest_border_fl buffer width height 4 u v

/-- Embeds `interpolate_nearest_byte`: texel at the truncated `(u, v)` index
clamped to the image edge. -/
def interpolate_nearest_byte (buffer : ℤ → ℕ) (width height : ℤ)
    (u v : ℚ) : List ℕ :=
  [buffer ((width * clamp (truncToInt v) 0 (height - 1) + clamp (truncToInt u) 0 (width - 1)) * 4),
   buffer ((width * clamp (truncToInt v) 0 (height - 1) + clamp (truncToInt u) 0 (width - 1)) * 4 + 1),
   buffer ((width * clamp (truncToInt v) 0 (height - 1) + clamp (truncToInt u) 0 (width - 1)) * 4 + 2),
   buffer ((width * clamp (truncToInt v) 0 (height - 1) + clamp (truncToInt u) 0 (width - 1)) * 4 + 3)]

/-- Embeds `interpolate_nearest_fl` (output-pointer form, generic channel
count): clamp-to-edge nearest sampling. -/
def interpolate_nearest_fl (buffer : ℤ → ℚ) (width height components : ℤ)
    (u v : ℚ) : List ℚ :=
  (List.range components.toNat).map fun (i : ℕ) =>
    buffer ((width * clamp (truncToInt v) 0 (height - 1) + clamp (truncToInt u) 0 (width - 1))
      * components + (i : ℤ))

/-- Embeds the `float4`-returning overload of `interpolate_nearest_fl`,
which calls the output-pointer form with `components = 4`. -/
def interpolate_nearest_fl4 (buffer : ℤ → ℚ) (width height : ℤ)
    (u v : ℚ) : List ℚ :=
  interpolate_nearest_fl buffer width height 4 u v

/-- Embeds `interpolate_nearest_wrap_byte`: the coordinate is wrapped by
`floored_fmod` into the image before truncation. -/
def interpolate_nearest_wrap_byte (buffer : ℤ → ℕ) (width height : ℤ)
    (u v : ℚ) : List ℕ :=
  [buffer ((width * wrap_index v height + wrap_index u width) * 4),
   buffer ((width * wrap_index v height + wrap_index u width) * 4 + 1),
   buffer ((width * wrap_index v height + wrap_index u width) * 4 + 2),
   buffer ((width * wrap_index v height + wrap_index u width) * 4 + 3)]

/-- Embeds `interpolate_nearest_wrap_fl` (output-pointer form, generic
channel count). -/
def interpolate_nearest_wrap_fl (buffer : ℤ → ℚ) (width height components : ℤ)
    (u v : ℚ) : List ℚ :=
  (List.range components.toNat).map fun (i : ℕ) =>
    buffer ((width * wrap_index v height + wrap_index u width) * components + (i : ℤ))

/-- Embeds the `float4`-returning overload of `interpolate_nearest_wrap_fl`,
which calls the output-pointer form with `components = 4`. -/
def interpolate_nearest_wrap_fl4 (buffer : ℤ → ℚ) (width height : ℤ)
    (u v : ℚ) : List ℚ :=
  interpolate_nearest_wrap_fl buffer width height 4 u v

/-- The texel fetch described by the spec for byte buffers: the four channels
of the texel at integer index `(x, y)` (spec-side definition, for comparison
with the samplers). -/
def spec_texel_byte (buffer : ℤ → ℕ) (width x y : ℤ) : List ℕ :=
  [buffer ((width * y + x) * 4),
   buffer ((width * y + x) * 4 + 1),
   buffer ((width * y + x) * 4 + 2),
   buffer ((width * y + x) * 4 + 3)]

/-- The texel fetch described by the spec for float buffers: the `components`
channels of the texel at integer index `(x, y)` (spec-side definition, for
comparison with the samplers). -/
def spec_texel_fl (buffer : ℤ → ℚ) (width components x y : ℤ) : List ℚ :=
  (List.range components.toNat).map fun (i : ℕ) =>
    buffer ((width * y + x) * components + (i : ℤ))

/-- Modelled from the spec: the Boundary Resolver of section 4.1 (the generic
wrap-mode sampler bodies are not under the tree).  Maps an integer texel index
and an axis extent to an in-bounds index, or to `none` when the sample is void
under `Border`. -/
def resolve_index (mode : InterpWrapMode) (i extent : ℤ) : Option ℤ :=
  match mode with
  | .Extend => some (clamp i 0 (extent - 1))
  | .Repeat => some (i.emod extent)
  | .Border => if i < 0 ∨ extent ≤ i then none else some i

/-- Modelled from the spec: one texel fetch of the bilinear sampler — the
texel resolved per axis by the Boundary Resolver, or an all-zero contribution
when either axis is void under `Border`. -/
def sample_or_zero (buffer : ℤ → ℚ) (width height components : ℤ)
    (wrap_u wrap_v : InterpWrapMode) (xi yi : ℤ) : List ℚ :=
  match resolve_index wrap_u xi width, resolve_index wrap_v yi height with
  | some x, some y =>
      (List.range components.toNat).map fun (i : ℕ) =>
        buffer ((width * y + x) * components + (i : ℤ))
  | _, _ => List.replicate components.toNat 0

/-- Modelled from the spec: `interpolate_bilinear_wrapmode_fl` (declared in
the header, body not under the tree) — blends the four texels at
`floor(u,v)`, `+(1,0)`, `+(0,1)`, `+(1,1)` with weights
`(1-fx)(1-fy)`, `fx(1-fy)`, `(1-fx)fy`, `fx*fy` where `fx`, `fy` are the
fractional parts, each fetch going through the Boundary Resolver. -/
def interpolate_bilinear_wrapmode_fl (buffer : ℤ → ℚ) (width height components : ℤ)
    (u v : ℚ) (wrap_u wrap_v : InterpWrapMode) : List ℚ :=
  (List.range components.toNat).map fun (i : ℕ) =>
    (1 - (u - ⌊u⌋)) * (1 - (v - ⌊v⌋))
        * ((sample_or_zero buffer width height components wrap_u wrap_v ⌊u⌋ ⌊v⌋).getD i 0)
    + (u - ⌊u⌋) * (1 - (v - ⌊v⌋))
        * ((sample_or_zero buffer width height components wrap_u wrap_v (⌊u⌋ + 1) ⌊v⌋).getD i 0)
    + (1 - (u - ⌊u⌋)) * (v - ⌊v⌋)
        * ((sample_or_zero buffer width height components wrap_u wrap_v ⌊u⌋ (⌊v⌋ + 1)).getD i 0)
    + (u - ⌊u⌋) * (v - ⌊v⌋)
        * ((sample_or_zero buffer width height components wrap_u wrap_v (⌊u⌋ + 1) (⌊v⌋ + 1)).getD i 0)

/-- Modelled from the spec: `interpolate_bilinear_fl` (clamp-to-edge
bilinear, body not under the tree) — the wrap-mode sampler with `Extend`
on both axes. -/
def interpolate_bilinear_fl (buffer : ℤ → ℚ) (width height components : ℤ)
    (u v : ℚ) : List ℚ :=
  interpolate_bilinear_wrapmode_fl buffer width height components u v
    InterpWrapMode.Extend InterpWrapMode.Extend

/-- Modelled from the spec: the 1D cubic convolution kernel of the
Mitchell–Netravali family with parameters `B`, `C` (section 4.4 names the
standard filter; the cubic sampler bodies are not under the tree). -/
def cubic_kernel (B C x : ℚ) : ℚ :=
  if |x| < 1 then
    ((12 - 9 * B - 6 * C) * |x| ^ 3 + (-18 + 12 * B + 6 * C) * |x| ^ 2 + (6 - 2 * B)) / 6
  else if |x| < 2 then
    ((-B - 6 * C) * |x| ^ 3 + (6 * B + 30 * C) * |x| ^ 2
      + (-12 * B - 48 * C) * |x| + (8 * B + 24 * C)) / 6
  else 0

/-- Modelled from the spec: the 1D weight of footprint column/row `i`
(`i = 0..3`, texel offset `i - 1` from the floored coordinate) for
fractional offset `t`. -/
def cubic_weight (B C t : ℚ) (i : ℕ) : ℚ :=
  cubic_kernel B C (t + 1 - (i : ℚ))

/-- Modelled from the spec: the generic-channel cubic sampler
(`interpolate_cubic_bspline_fl` with `B=1, C=0`,
`interpolate_cubic_mitchell_fl` with `B=C=1/3`; bodies not under the tree):
a separable 4x4 convolution over texels `floor(u,v)-1 .. floor(u,v)+2`,
clamp-to-edge boundary handling. -/
def interpolate_cubic_fl (B C : ℚ) (buffer : ℤ → ℚ) (width height components : ℤ)
    (u v : ℚ) : List ℚ :=
  (List.range components.toNat).map fun (ch : ℕ) =>
    ((List.range 4).map fun (j : ℕ) =>
      ((List.range 4).map fun (i : ℕ) =>
        cubic_weight B C (u - ⌊u⌋) i * cubic_weight B C (v - ⌊v⌋) j *
          buffer ((width * clamp (⌊v⌋ + (j : ℤ) - 1) 0 (height - 1)
            + clamp (⌊u⌋ + (i : ℤ) - 1) 0 (width - 1)) * components + (ch : ℤ))).sum).sum

/-- The 2x2 float buffer of the spec's bilinear scenario: texels
`(1,0,0,1), (0,1,0,1), (0,0,1,1), (1,1,1,1)` at `(0,0), (1,0), (0,1), (1,1)`,
laid out row-major with 4 channels. -/
def scenario_buffer : ℤ → ℚ := fun a =>
  [1, 0, 0, 1, 0, 1, 0, 1, 0, 0, 1, 1, 1, 1, 1, 1].getD a.toNat 0

/-- Sequential stores of a list of values at consecutive addresses, the
memory-level effect of the output-writing loops of the samplers. -/
def storeList {α : Type} : (ℤ → α) → ℤ → List α → (ℤ → α)
  | m, _, [] => m
  | m, p, a :: rest => storeList (fun q => if q = p then a else m q) (p + 1) rest

/-- Memory-level embedding of `interpolate_nearest_fl`: the whole address
space is one map, `buf` and `out` are the buffer and output base addresses,
and the only stores performed are the `components` output writes. -/
def interpolate_nearest_fl_mem (m : ℤ → ℚ) (buf out width height components : ℤ)
    (u v : ℚ) : ℤ → ℚ :=
  storeList m out ((List.range components.toNat).map fun (i : ℕ) =>
    m (buf + (width * clamp (truncToInt v) 0 (height - 1)
      + clamp (truncToInt u) 0 (width - 1)) * components + (i : ℤ)))

/-- Memory-level embedding of `interpolate_nearest_border_byte`: on either
branch the only stores performed are the four output writes. -/
def interpolate_nearest_border_byte_mem (m : ℤ → ℕ) (buf out width height : ℤ)
    (u v : ℚ) : ℤ → ℕ :=
  if truncToInt u < 0 ∨ width ≤ truncToInt u ∨ truncToInt v < 0 ∨ height ≤ truncToInt v then
    storeList m out [0, 0, 0, 0]
  else
    storeList m out
      [m (buf + (width * truncToInt v + truncToInt u) * 4),
       m (buf + (width * truncToInt v + truncToInt u) * 4 + 1),
       m (buf + (width * truncToInt v + truncToInt u) * 4 + 2),
       m (buf + (width * truncToInt v + truncToInt u) * 4 + 3)]

end math

end blender

/-- Modelled from the spec: one accumulation step of `BLI_ewa_filter`
(body not under the tree) — add `weight * pixel` to the four channel
accumulators and `weight` to the weight accumulator, the pixel being obtained
through the caller-supplied read callback. -/
def ewa_step (read_pixel : ℤ → ℤ → List ℚ) (st : List ℚ × ℚ) (e : ℤ × ℤ × ℚ) :
    List ℚ × ℚ :=
  (List.zipWith (fun a b => a + e.2.2 * b) st.1 (read_pixel e.1 e.2.1), st.2 + e.2.2)

/-- Modelled from the spec: the accumulation loop of `BLI_ewa_filter` over the
visited footprint (a list of pixel coordinates with their quantized ellipse
weights), starting from zeroed accumulators. -/
def ewa_accumulate (footprint : List (ℤ × ℤ × ℚ)) (read_pixel : ℤ → ℤ → List ℚ) :
    List ℚ × ℚ :=
  footprint.foldl (ewa_step read_pixel) ([0, 0, 0, 0], 0)

/-- Modelled from the spec: the final normalization of `BLI_ewa_filter` —
result is the accumulated weighted sum divided by the accumulated weight, and
zero in all four channels when the accumulated weight is zero (degenerate
ellipse or fully out-of-bounds footprint), never a division fault. -/
def BLI_ewa_filter (footprint : List (ℤ × ℤ × ℚ)) (read_pixel : ℤ → ℤ → List ℚ) :
    List ℚ :=
  if (ewa_accumulate footprint read_pixel).2 = 0 then [0, 0, 0, 0]
  else (ewa_accumulate footprint read_pixel).1.map
    fun a => a / (ewa_accumulate footprint read_pixel).2

/-- Total ellipse weight of a footprint. -/
def ewa_wsum (footprint : List (ℤ × ℤ × ℚ)) : ℚ :=
  (footprint.map fun e => e.2.2).sum

open blender.math

theorem truncToInt_of_nonneg {q : ℚ} (h : 0 ≤ q) : truncToInt q = ⌊q⌋ := if_pos h

theorem truncToInt_nonpos {q : ℚ} (h : q < 0) : truncToInt q ≤ 0 := by
  rw [truncToInt, if_neg (not_le.mpr h)]
  exact Int.ceil_le.mpr (by exact_mod_cast h.le)

theorem floored_fmod_eq_fract {a b : ℚ} (hb : b ≠ 0) :
    floored_fmod a b = b * Int.fract (a / b) := by
  rw [floored_fmod, Int.fract]
  field_simp
  ring

theorem floored_fmod_nonneg {a b : ℚ} (hb : 0 < b) : 0 ≤ floored_fmod a b := by
  rw [floored_fmod_eq_fract hb.ne.symm]
  exact mul_nonneg hb.le (Int.fract_nonneg _)

theorem floored_fmod_lt {a b : ℚ} (hb : 0 < b) : floored_fmod a b < b := by
  rw [floored_fmod_eq_fract hb.ne.symm]
  calc b * Int.fract (a / b) < b * 1 := mul_lt_mul_of_pos_left (Int.fract_lt_one _) hb
    _ = b := mul_one b

theorem floored_fmod_add_right {a b : ℚ} (hb : b ≠ 0) :
    floored_fmod (a + b) b = floored_fmod a b := by
  rw [floored_fmod, floored_fmod, add_div, div_self hb, Int.floor_add_one]
  push_cast
  ring

theorem wrap_index_range (extent : ℤ) (he : 0 < extent) (u : ℚ) :
    0 ≤ wrap_index u extent ∧ wrap_index u extent < extent := by
  have hb : (0 : ℚ) < (extent : ℚ) := by exact_mod_cast he
  have h0 : 0 ≤ floored_fmod u (extent : ℚ) := floored_fmod_nonneg hb
  have h1 : floored_fmod u (extent : ℚ) < (extent : ℚ) := floored_fmod_lt hb
  rw [wrap_index, truncToInt_of_nonneg h0]
  exact ⟨Int.le_floor.mpr (by exact_mod_cast h0), Int.floor_lt.mpr h1⟩

theorem clamp_of_mem {a hi : ℤ} (h0 : 0 ≤ a) (h1 : a ≤ hi) : clamp a 0 hi = a := by
  rw [clamp, max_eq_left h0, min_eq_left h1]

theorem clamp_range (a extent : ℤ) (he : 0 < extent) :
    0 ≤ clamp a 0 (extent - 1) ∧ clamp a 0 (extent - 1) < extent := by
  rw [clamp]
  exact ⟨le_min (le_max_right a 0) (by omega), lt_of_le_of_lt (min_le_right _ _) (by omega)⟩

theorem clamp_trunc_eq_clamp_floor (u : ℚ) (hi : ℤ) :
    clamp (truncToInt u) 0 hi = clamp ⌊u⌋ 0 hi := by
  rcases le_or_lt 0 u with h | h
  · rw [truncToInt_of_nonneg h]
  · have h1 : truncToInt u ≤ 0 := truncToInt_nonpos h
    have h2 : ⌊u⌋ ≤ 0 := Int.floor_nonpos h.le
    rw [clamp, clamp, max_eq_right h1, max_eq_right h2]

theorem range_map_eq_replicate {α : Type} {n : ℕ} {f : ℕ → α} {V : α}
    (h : ∀ i, i < n → f i = V) :
    (List.range n).map f = List.replicate n V := by
  apply List.ext_getElem
  · simp
  · intro i h1 h2
    simp only [List.getElem_map, List.getElem_range, List.getElem_replicate]
    exact h i (by simpa using h1)

theorem getD_replicate_of_lt {α : Type} {n i : ℕ} (a d : α) (h : i < n) :
    (List.replicate n a).getD i d = a := by
  rw [List.getD_eq_getElem?_getD, List.getElem?_replicate, if_pos h]
  rfl

theorem resolve_nonborder {mode : InterpWrapMode} (hm : mode ≠ InterpWrapMode.Border)
    {extent : ℤ} (he : 0 < extent) (i : ℤ) :
    ∃ x, resolve_index mode i extent = some x ∧ 0 ≤ x ∧ x < extent := by
  cases mode with
  | Extend => exact ⟨clamp i 0 (extent - 1), rfl, clamp_range i extent he⟩
  | Repeat => exact ⟨i.emod extent, rfl, Int.emod_nonneg i he.ne', Int.emod_lt_of_pos i he⟩
  | Border => exact absurd rfl hm

theorem sample_or_zero_flat {buffer : ℤ → ℚ} {width height components : ℤ} {V : ℚ}
    (hw : 0 < width) (hh : 0 < height)
    (hbf : ∀ x y i : ℤ, 0 ≤ x → x < width → 0 ≤ y → y < height → 0 ≤ i → i < components →
      buffer ((width * y + x) * components + i) = V)
    {wrap_u wrap_v : InterpWrapMode}
    (hwu : wrap_u ≠ InterpWrapMode.Border) (hwv : wrap_v ≠ InterpWrapMode.Border)
    (xi yi : ℤ) :
    sample_or_zero buffer width height components wrap_u wrap_v xi yi
      = List.replicate components.toNat V := by
  obtain ⟨x, hx, hx0, hxw⟩ := resolve_nonborder hwu hw xi
  obtain ⟨y, hy, hy0, hyh⟩ := resolve_nonborder hwv hh yi
  unfold sample_or_zero
  rw [hx, hy]
  show (List.range components.toNat).map
      (fun i : ℕ => buffer ((width * y + x) * components + (i : ℤ)))
    = List.replicate components.toNat V
  apply range_map_eq_replicate
  intro i hi
  exact hbf x y i hx0 hxw hy0 hyh (Int.natCast_nonneg i) (by omega)

theorem cubic_kernel_of_lt_one (B C x : ℚ) (h0 : 0 ≤ x) (h1 : x < 1) :
    cubic_kernel B C x
      = ((12 - 9 * B - 6 * C) * x ^ 3 + (-18 + 12 * B + 6 * C) * x ^ 2 + (6 - 2 * B)) / 6 := by
  rw [cubic_kernel, abs_of_nonneg h0, if_pos h1]

theorem cubic_kernel_of_lt_two (B C x : ℚ) (h1 : 1 ≤ x) (h2 : x < 2) :
    cubic_kernel B C x
      = ((-B - 6 * C) * x ^ 3 + (6 * B + 30 * C) * x ^ 2
          + (-12 * B - 48 * C) * x + (8 * B + 24 * C)) / 6 := by
  rw [cubic_kernel, abs_of_nonneg (by linarith), if_neg (by linarith), if_pos h2]

theorem cubic_kernel_of_two_le (B C x : ℚ) (h2 : 2 ≤ x) :
    cubic_kernel B C x = 0 := by
  rw [cubic_kernel, abs_of_nonneg (by linarith), if_neg (by linarith), if_neg (by linarith)]

theorem cubic_kernel_neg (B C x : ℚ) : cubic_kernel B C (-x) = cubic_kernel B C x := by
  rw [cubic_kernel, cubic_kernel, abs_neg]

theorem cubic_weight_sum (B C : ℚ) {t : ℚ} (h0 : 0 ≤ t) (h1 : t < 1) :
    cubic_weight B C t 0 + cubic_weight B C t 1 + cubic_weight B C t 2 + cubic_weight B C t 3
      = 1 := by
  have e0 : cubic_weight B C t 0 = cubic_kernel B C (t + 1) := by
    rw [cubic_weight]
    congr 1
    push_cast
    ring
  have e1 : cubic_weight B C t 1 = cubic_kernel B C t := by
    rw [cubic_weight]
    congr 1
    push_cast
    ring
  have e2 : cubic_weight B C t 2 = cubic_kernel B C (1 - t) := by
    rw [cubic_weight, ← cubic_kernel_neg B C (1 - t)]
    congr 1
    push_cast
    ring
  have e3 : cubic_weight B C t 3 = cubic_kernel B C (2 - t) := by
    rw [cubic_weight, ← cubic_kernel_neg B C (2 - t)]
    congr 1
    push_cast
    ring
  rw [e0, e1, e2, e3]
  rcases eq_or_lt_of_le h0 with h | h
  · rw [← h]
    rw [show (0 : ℚ) + 1 = 1 by norm_num, show (1 : ℚ) - 0 = 1 by norm_num,
      show (2 : ℚ) - 0 = 2 by norm_num]
    rw [cubic_kernel_of_lt_two B C 1 (by norm_num) (by norm_num)]
    rw [cubic_kernel_of_lt_one B C 0 (by norm_num) (by norm_num)]
    rw [cubic_kernel_of_two_le B C 2 (by norm_num)]
    ring
  · rw [cubic_kernel_of_lt_two B C (t + 1) (by linarith) (by linarith)]
    rw [cubic_kernel_of_lt_one B C t h0 h1]
    rw [cubic_kernel_of_lt_one B C (1 - t) (by linarith) (by linarith)]
    rw [cubic_kernel_of_lt_two B C (2 - t) (by linarith) (by linarith)]
    ring

theorem storeList_untouched {α : Type} (vals : List α) :
    ∀ (m : ℤ → α) (p q : ℤ), q < p ∨ p + (vals.length : ℤ) ≤ q →
      storeList m p vals q = m q := by
  induction vals with
  | nil => intro m p q _; rfl
  | cons a rest ih =>
      intro m p q hq
      simp only [List.length_cons] at hq
      push_cast at hq
      simp only [storeList]
      rw [ih (fun q => if q = p then a else m q) (p + 1) q (by omega)]
      have hne : q ≠ p := by omega
      exact if_neg hne

theorem ewa_foldl_flat (read_pixel : ℤ → ℤ → List ℚ) (V : ℚ)
    (hrp : ∀ x y, read_pixel x y = [V, V, V, V]) :
    ∀ (fp : List (ℤ × ℤ × ℚ)) (d : ℚ),
      fp.foldl (ewa_step read_pixel) ([d * V, d * V, d * V, d * V], d)
        = ([(d + ewa_wsum fp) * V, (d + ewa_wsum fp) * V, (d + ewa_wsum fp) * V,
            (d + ewa_wsum fp) * V], d + ewa_wsum fp) := by
  intro fp
  induction fp with
  | nil => intro d; simp [ewa_wsum]
  | cons e rest ih =>
      intro d
      rw [List.foldl_cons]
      have hstep : ewa_step read_pixel ([d * V, d * V, d * V, d * V], d) e
          = ([(d + e.2.2) * V, (d + e.2.2) * V, (d + e.2.2) * V, (d + e.2.2) * V],
             d + e.2.2) := by
        simp only [ewa_step, hrp, List.zipWith_cons_cons, List.zipWith_nil_left]
        have harith : d * V + e.2.2 * V = (d + e.2.2) * V := by ring
        rw [harith]
      rw [hstep, ih (d + e.2.2)]
      have hw : ewa_wsum (e :: rest) = e.2.2 + ewa_wsum rest := by
        simp [ewa_wsum]
      rw [hw]
      have harith2 : d + e.2.2 + ewa_wsum rest = d + (e.2.2 + ewa_wsum rest) := by ring
      rw [harith2]

theorem ewa_accumulate_flat (fp : List (ℤ × ℤ × ℚ)) (read_pixel : ℤ → ℤ → List ℚ)
    (V : ℚ) (hrp : ∀ x y, read_pixel x y = [V, V, V, V]) :
    ewa_accumulate fp read_pixel
      = ([ewa_wsum fp * V, ewa_wsum fp * V, ewa_wsum fp * V, ewa_wsum fp * V],
         ewa_wsum fp) := by
  have h0 : (([(0 : ℚ), 0, 0, 0], (0 : ℚ)) : List ℚ × ℚ)
      = ([0 * V, 0 * V, 0 * V, 0 * V], (0 : ℚ)) := by
    norm_num
  rw [ewa_accumulate, h0, ewa_foldl_flat read_pixel V hrp fp 0]
  norm_num

/-- C1 (amended): border-mode nearest sampling tests the C-truncated
(toward-zero) integer coordinates against the image rectangle; whenever the
truncated `u` is outside `[0, width)` or the truncated `v` is outside
`[0, height)`, both the byte and the float entry points write zero to every
output channel and perform no read of the pixel buffer (the output is the
same for every buffer, as the statement is universally quantified over it);
in particular the nearest-border sample at `u=5, v=5` on a 4x4 buffer returns
`(0,0,0,0)`. -/
theorem border_nearest_out_of_bounds_zero (bb : ℤ → ℕ) (bf : ℤ → ℚ)
    (width height components : ℤ) (u v : ℚ)
    (hout : truncToInt u < 0 ∨ width ≤ truncToInt u
      ∨ truncToInt v < 0 ∨ height ≤ truncToInt v) :
    interpolate_nearest_border_byte bb width height u v = [0, 0, 0, 0] ∧
    interpolate_nearest_border_fl bf width height components u v
      = List.replicate components.toNat 0 := by
  constructor
  · rw [interpolate_nearest_border_byte, if_pos hout]
  · rw [interpolate_nearest_border_fl, if_pos hout]

/-- Witness for C1 at the spec's concrete scenario: `u=v=5` on a 4x4 buffer
(the buffer values are arbitrary nonzero constants). -/
theorem border_nearest_out_of_bounds_zero_witness :
    (truncToInt 5 < 0 ∨ (4 : ℤ) ≤ truncToInt 5
      ∨ truncToInt 5 < 0 ∨ (4 : ℤ) ≤ truncToInt 5) ∧
    interpolate_nearest_border_byte (fun _ => 9) 4 4 5 5 = [0, 0, 0, 0] ∧
    interpolate_nearest_border_fl (fun _ => 9) 4 4 4 5 5 = List.replicate 4 0 := by
  have h5 : truncToInt (5 : ℚ) = 5 := by
    rw [truncToInt_of_nonneg (by norm_num)]
    norm_num
  have hout : truncToInt 5 < 0 ∨ (4 : ℤ) ≤ truncToInt 5
      ∨ truncToInt 5 < 0 ∨ (4 : ℤ) ≤ truncToInt 5 := by
    rw [h5]
    omega
  exact ⟨hout,
    border_nearest_out_of_bounds_zero (fun _ => 9) (fun _ => 9) 4 4 4 5 5 hout⟩

/-- C1 counterexample: at `u = -1/2` we have `floor(u) = -1 < 0`, yet
border-mode nearest sampling on a 4x4 all-ones float buffer returns the texel
at column 0 rather than zero — the code truncates toward zero, so
`int(-1/2) = 0` is treated as inside the image and the buffer is read. -/
theorem border_nearest_floor_condition_cex :
    ⌊(-1/2 : ℚ)⌋ < 0 ∧
    interpolate_nearest_border_fl (fun _ => 1) 4 4 4 (-1/2) 0 = [1, 1, 1, 1] ∧
    interpolate_nearest_border_fl (fun _ => 1) 4 4 4 (-1/2) 0 ≠ List.replicate 4 0 := by
  have hfloor : ⌊(-1/2 : ℚ)⌋ < 0 := by norm_num
  have htr : truncToInt (-1/2 : ℚ) = 0 := by
    rw [truncToInt, if_neg (by norm_num)]
    norm_num
  have htr0 : truncToInt (0 : ℚ) = 0 := by
    rw [truncToInt_of_nonneg le_rfl]
    norm_num
  have hval : interpolate_nearest_border_fl (fun _ => 1) 4 4 4 (-1/2) 0 = [1, 1, 1, 1] := by
    rw [interpolate_nearest_border_fl, htr, htr0, if_neg (by omega)]
    decide
  exact ⟨hfloor, hval, by rw [hval]; decide⟩

/-- C2: repeat-mode nearest sampling computes its per-axis texel index from
the floored (non-truncating) modulo of the coordinate by the axis extent, so
the index is non-negative for every input, and the wrap is seamless: for any
buffer with positive width, sampling at `u = -0.01` equals sampling at
`u = width - 0.01` (byte and float entry points). -/
theorem repeat_nearest_seamless_wrap (bb : ℤ → ℕ) (bf : ℤ → ℚ)
    (width height components : ℤ) (v : ℚ) (hw : 0 < width) :
    (∀ u : ℚ, 0 ≤ wrap_index u width) ∧
    interpolate_nearest_wrap_byte bb width height (-1/100) v
      = interpolate_nearest_wrap_byte bb width height ((width : ℚ) - 1/100) v ∧
    interpolate_nearest_wrap_fl bf width height components (-1/100) v
      = interpolate_nearest_wrap_fl bf width height components ((width : ℚ) - 1/100) v := by
  have hbne : ((width : ℚ)) ≠ 0 := by
    exact_mod_cast hw.ne'
  have hww : wrap_index ((width : ℚ) - 1/100) width = wrap_index (-1/100) width := by
    rw [wrap_index, wrap_index]
    congr 1
    rw [show ((width : ℚ) - 1/100) = -1/100 + (width : ℚ) by ring]
    exact floored_fmod_add_right hbne
  refine ⟨fun u => (wrap_index_range width hw u).1, ?_, ?_⟩
  · rw [interpolate_nearest_wrap_byte, interpolate_nearest_wrap_byte, hww]
  · rw [interpolate_nearest_wrap_fl, interpolate_nearest_wrap_fl, hww]

/-- Witness for C2 on a 4x1 single-channel buffer. -/
theorem repeat_nearest_seamless_wrap_witness :
    (0 : ℤ) < 4 ∧
    ((∀ u : ℚ, 0 ≤ wrap_index u 4) ∧
     interpolate_nearest_wrap_byte (fun _ => 0) 4 1 (-1/100) 0
       = interpolate_nearest_wrap_byte (fun _ => 0) 4 1 (((4 : ℤ) : ℚ) - 1/100) 0 ∧
     interpolate_nearest_wrap_fl (fun _ => 0) 4 1 1 (-1/100) 0
       = interpolate_nearest_wrap_fl (fun _ => 0) 4 1 1 (((4 : ℤ) : ℚ) - 1/100) 0) :=
  ⟨by decide, repeat_nearest_seamless_wrap (fun _ => 0) (fun _ => 0) 4 1 1 0 (by decide)⟩

/-- C3: extend-mode (clamp) nearest sampling returns the texel at index
`(clamp(floor(u), 0, width-1), clamp(floor(v), 0, height-1))` — the code
truncates toward zero, which agrees with the floor after clamping — and for
any coordinate with `floor(u) < 0` it equals sampling at the boundary texel
`u = 0` (byte and float entry points). -/
theorem extend_nearest_clamps_to_edge (bb : ℤ → ℕ) (bf : ℤ → ℚ)
    (width height components : ℤ) (u v : ℚ) (hw : 0 < width) (hh : 0 < height) :
    interpolate_nearest_byte bb width height u v
      = spec_texel_byte bb width (clamp ⌊u⌋ 0 (width - 1)) (clamp ⌊v⌋ 0 (height - 1)) ∧
    interpolate_nearest_fl bf width height components u v
      = spec_texel_fl bf width components (clamp ⌊u⌋ 0 (width - 1))
          (clamp ⌊v⌋ 0 (height - 1)) ∧
    (⌊u⌋ < 0 →
      interpolate_nearest_byte bb width height u v
        = interpolate_nearest_byte bb width height 0 v ∧
      interpolate_nearest_fl bf width height components u v
        = interpolate_nearest_fl bf width height components 0 v) := by
  refine ⟨?_, ?_, ?_⟩
  · rw [interpolate_nearest_byte, spec_texel_byte,
      clamp_trunc_eq_clamp_floor u, clamp_trunc_eq_clamp_floor v]
  · rw [interpolate_nearest_fl, spec_texel_fl,
      clamp_trunc_eq_clamp_floor u, clamp_trunc_eq_clamp_floor v]
  · intro hu
    have hu0 : u < 0 := by exact_mod_cast Int.floor_lt.mp hu
    have htu : truncToInt u ≤ 0 := truncToInt_nonpos hu0
    have ht0 : truncToInt (0 : ℚ) = 0 := by
      rw [truncToInt_of_nonneg le_rfl]
      norm_num
    have h1 : clamp (truncToInt u) 0 (width - 1)
        = clamp (truncToInt (0 : ℚ)) 0 (width - 1) := by
      rw [ht0, clamp, clamp, max_eq_right htu, max_eq_left (le_refl 0)]
    constructor
    · rw [interpolate_nearest_byte, interpolate_nearest_byte, h1]
    · rw [interpolate_nearest_fl, interpolate_nearest_fl, h1]

/-- Witness for C3 at `u = -3/2, v = 1/2` on a 4x4 two-channel buffer. -/
theorem extend_nearest_clamps_to_edge_witness :
    (0 : ℤ) < 4 ∧
    (interpolate_nearest_byte (fun _ => 5) 4 4 (-3/2) (1/2)
       = spec_texel_byte (fun _ => 5) 4 (clamp ⌊(-3/2 : ℚ)⌋ 0 3) (clamp ⌊(1/2 : ℚ)⌋ 0 3) ∧
     interpolate_nearest_fl (fun _ => 2) 4 4 2 (-3/2) (1/2)
       = spec_texel_fl (fun _ => 2) 4 2 (clamp ⌊(-3/2 : ℚ)⌋ 0 3) (clamp ⌊(1/2 : ℚ)⌋ 0 3) ∧
     (⌊(-3/2 : ℚ)⌋ < 0 →
       interpolate_nearest_byte (fun _ => 5) 4 4 (-3/2) (1/2)
         = interpolate_nearest_byte (fun _ => 5) 4 4 0 (1/2) ∧
       interpolate_nearest_fl (fun _ => 2) 4 4 2 (-3/2) (1/2)
         = interpolate_nearest_fl (fun _ => 2) 4 4 2 0 (1/2))) := by
  have h4 : (0 : ℤ) < 4 := by decide
  have happ := extend_nearest_clamps_to_edge (fun _ => 5) (fun _ => 2) 4 4 2
    (-3/2) (1/2) h4 h4
  exact ⟨h4, by simpa using happ⟩

/-- C5: on the spec's 2x2 float buffer with texels `(1,0,0,1), (0,1,0,1),
(0,0,1,1), (1,1,1,1)`, the bilinear sample at the point `u=v=1.0` — which,
under the spec's documented 0.5 pre-offset convention, means the entry point
is invoked at `(0.5, 0.5)` — blends the four texels with weights
`(1-fx)(1-fy), fx(1-fy), (1-fx)fy, fx*fy` and yields exactly the average
`(0.5, 0.5, 0.5, 1.0)`. -/
theorem bilinear_average_scenario :
    interpolate_bilinear_fl scenario_buffer 2 2 4 (1/2) (1/2) = [1/2, 1/2, 1/2, 1] := by
  have hf : ⌊(1/2 : ℚ)⌋ = 0 := by norm_num
  rw [interpolate_bilinear_fl, interpolate_bilinear_wrapmode_fl, hf]
  have h4 : Int.toNat 4 = 4 := rfl
  have h5 : Int.toNat 5 = 5 := rfl
  have h6 : Int.toNat 6 = 6 := rfl
  have h7 : Int.toNat 7 = 7 := rfl
  have h8 : Int.toNat 8 = 8 := rfl
  have h9 : Int.toNat 9 = 9 := rfl
  have h10 : Int.toNat 10 = 10 := rfl
  have h11 : Int.toNat 11 = 11 := rfl
  have h12 : Int.toNat 12 = 12 := rfl
  have h13 : Int.toNat 13 = 13 := rfl
  have h14 : Int.toNat 14 = 14 := rfl
  have h15 : Int.toNat 15 = 15 := rfl
  norm_num [sample_or_zero, resolve_index, clamp, scenario_buffer, List.range_succ, h4,
    h5, h6, h7, h8, h9, h10, h11, h12, h13, h14, h15,
    List.getD_cons_zero, List.getD_cons_succ,
    List.getElem?_cons_zero, List.getElem?_cons_succ, Option.getD_some, Option.map_some']

/-- C6: when the accumulated weight over the visited footprint is zero — a
degenerate ellipse or a fully out-of-bounds footprint — the EWA filter writes
zero into all four result channels instead of dividing by zero. -/
theorem ewa_zero_weight_zero_result (fp : List (ℤ × ℤ × ℚ)) (rp : ℤ → ℤ → List ℚ)
    (hden : (ewa_accumulate fp rp).2 = 0) :
    BLI_ewa_filter fp rp = [0, 0, 0, 0] := by
  rw [BLI_ewa_filter, if_pos hden]

/-- Witness for C6: the empty footprint accumulates zero weight. -/
theorem ewa_zero_weight_zero_result_witness :
    (ewa_accumulate [] (fun _ _ => ([5, 5, 5, 5] : List ℚ))).2 = 0 ∧
    BLI_ewa_filter [] (fun _ _ => [5, 5, 5, 5]) = [0, 0, 0, 0] :=
  ⟨rfl, ewa_zero_weight_zero_result [] (fun _ _ => [5, 5, 5, 5]) rfl⟩

/-- C7: on every input and on every control path (including the out-of-bounds
border branch), the float entry points that take a caller-provided output
pointer write exactly `components` channel values — the output is fully
written, never partially. -/
theorem fl_entry_points_write_components (bf : ℤ → ℚ) (width height components : ℤ)
    (u v : ℚ) :
    (interpolate_nearest_border_fl bf width height components u v).length
      = components.toNat ∧
    (interpolate_nearest_fl bf width height components u v).length = components.toNat ∧
    (interpolate_nearest_wrap_fl bf width height components u v).length
      = components.toNat := by
  refine ⟨?_, ?_, ?_⟩
  · rw [interpolate_nearest_border_fl]
    by_cases hcond : truncToInt u < 0 ∨ width ≤ truncToInt u
        ∨ truncToInt v < 0 ∨ height ≤ truncToInt v
    · rw [if_pos hcond, List.length_replicate]
    · rw [if_neg hcond, List.length_map, List.length_range]
  · rw [interpolate_nearest_fl, List.length_map, List.length_range]
  · rw [interpolate_nearest_wrap_fl, List.length_map, List.length_range]

/-- C9: each fixed 4-component convenience overload produces exactly the
same channel values as the corresponding output-pointer variant invoked with
`components = 4` (or the fixed byte variant), and its result has exactly
four channels. -/
theorem fixed4_overloads_match (bb : ℤ → ℕ) (bf : ℤ → ℚ) (width height : ℤ)
    (u v : ℚ) (hw : 0 < width) (hh : 0 < height) :
    interpolate_nearest_border_byte4 bb width height u v
      = interpolate_nearest_border_byte bb width height u v ∧
    interpolate_nearest_border_fl4 bf width height u v
      = interpolate_nearest_border_fl bf width height 4 u v ∧
    interpolate_nearest_fl4 bf width height u v
      = interpolate_nearest_fl bf width height 4 u v ∧
    interpolate_nearest_wrap_fl4 bf width height u v
      = interpolate_nearest_wrap_fl bf width height 4 u v ∧
    (interpolate_nearest_border_byte4 bb width height u v).length = 4 ∧
    (interpolate_nearest_border_fl4 bf width height u v).length = 4 ∧
    (interpolate_nearest_fl4 bf width height u v).length = 4 ∧
    (interpolate_nearest_wrap_fl4 bf width height u v).length = 4 := by
  refine ⟨rfl, rfl, rfl, rfl, ?_, ?_, ?_, ?_⟩
  · rw [interpolate_nearest_border_byte4, interpolate_nearest_border_byte]
    by_cases hcond : truncToInt u < 0 ∨ width ≤ truncToInt u
        ∨ truncToInt v < 0 ∨ height ≤ truncToInt v
    · rw [if_pos hcond]
      rfl
    · rw [if_neg hcond]
      rfl
  · rw [interpolate_nearest_border_fl4, interpolate_nearest_border_fl]
    by_cases hcond : truncToInt u < 0 ∨ width ≤ truncToInt u
        ∨ truncToInt v < 0 ∨ height ≤ truncToInt v
    · rw [if_pos hcond, List.length_replicate]
      rfl
    · rw [if_neg hcond, List.length_map, List.length_range]
      rfl
  · rw [interpolate_nearest_fl4, interpolate_nearest_fl, List.length_map, List.length_range]
    rfl
  · rw [interpolate_nearest_wrap_fl4, interpolate_nearest_wrap_fl,
      List.length_map, List.length_range]
    rfl

/-- C4 (amended): flat-field invariance — over a buffer whose texels all hold
one value, an in-bounds coordinate reproduces that value exactly: for the
nearest samplers (border, clamp and repeat modes, byte and float paths), for
bilinear sampling under `Extend` and `Repeat` wrap modes, for the cubic
samplers with any kernel parameters (clamp-to-edge), and for the EWA filter
whenever the accumulated footprint weight is nonzero.  Under `Border` wrap a
bilinear footprint straddling the edge gives its out-of-bounds texels zero
contribution instead, so that case is excluded (see the counterexample). -/
theorem flat_field_invariance (bb : ℤ → ℕ) (bf : ℤ → ℚ)
    (width height components : ℤ) (u v V : ℚ) (Vb : ℕ)
    (hw : 0 < width) (hh : 0 < height) (hc : 0 < components)
    (hu0 : 0 ≤ u) (huw : u < (width : ℚ)) (hv0 : 0 ≤ v) (hvh : v < (height : ℚ))
    (hbb : ∀ x y i : ℤ, 0 ≤ x → x < width → 0 ≤ y → y < height → 0 ≤ i → i < 4 →
      bb ((width * y + x) * 4 + i) = Vb)
    (hbf : ∀ x y i : ℤ, 0 ≤ x → x < width → 0 ≤ y → y < height → 0 ≤ i → i < components →
      bf ((width * y + x) * components + i) = V) :
    interpolate_nearest_border_byte bb width height u v = [Vb, Vb, Vb, Vb] ∧
    interpolate_nearest_byte bb width height u v = [Vb, Vb, Vb, Vb] ∧
    interpolate_nearest_wrap_byte bb width height u v = [Vb, Vb, Vb, Vb] ∧
    interpolate_nearest_border_fl bf width height components u v
      = List.replicate components.toNat V ∧
    interpolate_nearest_fl bf width height components u v
      = List.replicate components.toNat V ∧
    interpolate_nearest_wrap_fl bf width height components u v
      = List.replicate components.toNat V ∧
    (∀ wu wv : InterpWrapMode, wu ≠ InterpWrapMode.Border → wv ≠ InterpWrapMode.Border →
      interpolate_bilinear_wrapmode_fl bf width height components u v wu wv
        = List.replicate components.toNat V) ∧
    (∀ B C : ℚ, interpolate_cubic_fl B C bf width height components u v
      = List.replicate components.toNat V) ∧
    (∀ (fp : List (ℤ × ℤ × ℚ)) (rp : ℤ → ℤ → List ℚ),
      (∀ x y : ℤ, rp x y = [V, V, V, V]) → (ewa_accumulate fp rp).2 ≠ 0 →
      BLI_ewa_filter fp rp = [V, V, V, V]) := by
  have hxu : truncToInt u = ⌊u⌋ := truncToInt_of_nonneg hu0
  have hxv : truncToInt v = ⌊v⌋ := truncToInt_of_nonneg hv0
  have hfu0 : (0 : ℤ) ≤ ⌊u⌋ := Int.le_floor.mpr (by exact_mod_cast hu0)
  have hfuw : ⌊u⌋ < width := Int.floor_lt.mpr huw
  have hfv0 : (0 : ℤ) ≤ ⌊v⌋ := Int.le_floor.mpr (by exact_mod_cast hv0)
  have hfvh : ⌊v⌋ < height := Int.floor_lt.mpr hvh
  obtain ⟨hwx0, hwxw⟩ := wrap_index_range width hw u
  obtain ⟨hwy0, hwyh⟩ := wrap_index_range height hh v
  have e0 : bb ((width * ⌊v⌋ + ⌊u⌋) * 4) = Vb := by
    simpa using hbb ⌊u⌋ ⌊v⌋ 0 hfu0 hfuw hfv0 hfvh le_rfl (by norm_num)
  have e1 := hbb ⌊u⌋ ⌊v⌋ 1 hfu0 hfuw hfv0 hfvh (by norm_num) (by norm_num)
  have e2 := hbb ⌊u⌋ ⌊v⌋ 2 hfu0 hfuw hfv0 hfvh (by norm_num) (by norm_num)
  have e3 := hbb ⌊u⌋ ⌊v⌋ 3 hfu0 hfuw hfv0 hfvh (by norm_num) (by norm_num)
  have w0 : bb ((width * wrap_index v height + wrap_index u width) * 4) = Vb := by
    simpa using hbb _ _ 0 hwx0 hwxw hwy0 hwyh le_rfl (by norm_num)
  have w1 := hbb _ _ 1 hwx0 hwxw hwy0 hwyh (by norm_num) (by norm_num)
  have w2 := hbb _ _ 2 hwx0 hwxw hwy0 hwyh (by norm_num) (by norm_num)
  have w3 := hbb _ _ 3 hwx0 hwxw hwy0 hwyh (by norm_num) (by norm_num)
  have hfl : ∀ x y : ℤ, 0 ≤ x → x < width → 0 ≤ y → y < height →
      ((List.range components.toNat).map fun (i : ℕ) =>
        bf ((width * y + x) * components + (i : ℤ)))
        = List.replicate components.toNat V := by
    intro x y h1 h2 h3 h4
    apply range_map_eq_replicate
    intro i hi
    exact hbf x y i h1 h2 h3 h4 (Int.natCast_nonneg i) (by omega)
  refine ⟨?_, ?_, ?_, ?_, ?_, ?_, ?_, ?_, ?_⟩
  · rw [interpolate_nearest_border_byte, hxu, hxv, if_neg (by omega), e0, e1, e2, e3]
  · rw [interpolate_nearest_byte, hxu, hxv,
      clamp_of_mem hfu0 (by omega), clamp_of_mem hfv0 (by omega), e0, e1, e2, e3]
  · rw [interpolate_nearest_wrap_byte, w0, w1, w2, w3]
  · rw [interpolate_nearest_border_fl, hxu, hxv, if_neg (by omega)]
    exact hfl ⌊u⌋ ⌊v⌋ hfu0 hfuw hfv0 hfvh
  · rw [interpolate_nearest_fl, hxu, hxv,
      clamp_of_mem hfu0 (by omega), clamp_of_mem hfv0 (by omega)]
    exact hfl ⌊u⌋ ⌊v⌋ hfu0 hfuw hfv0 hfvh
  · rw [interpolate_nearest_wrap_fl]
    exact hfl _ _ hwx0 hwxw hwy0 hwyh
  · intro wu wv hwu hwv
    have hs := sample_or_zero_flat hw hh hbf hwu hwv
    rw [interpolate_bilinear_wrapmode_fl]
    apply range_map_eq_replicate
    intro i hi
    simp only [hs]
    rw [getD_replicate_of_lt V 0 hi]
    ring
  · intro B C
    have hfu1 : 0 ≤ u - (⌊u⌋ : ℚ) := by
      have := Int.floor_le u
      linarith
    have hfu2 : u - (⌊u⌋ : ℚ) < 1 := by
      have := Int.lt_floor_add_one u
      linarith
    have hfv1 : 0 ≤ v - (⌊v⌋ : ℚ) := by
      have := Int.floor_le v
      linarith
    have hfv2 : v - (⌊v⌋ : ℚ) < 1 := by
      have := Int.lt_floor_add_one v
      linarith
    rw [interpolate_cubic_fl]
    apply range_map_eq_replicate
    intro ch hch
    have htex : ∀ i j : ℕ,
        bf ((width * clamp (⌊v⌋ + (j : ℤ) - 1) 0 (height - 1)
          + clamp (⌊u⌋ + (i : ℤ) - 1) 0 (width - 1)) * components + (ch : ℤ)) = V := by
      intro i j
      exact hbf _ _ _
        (clamp_range (⌊u⌋ + (i : ℤ) - 1) width hw).1
        (clamp_range (⌊u⌋ + (i : ℤ) - 1) width hw).2
        (clamp_range (⌊v⌋ + (j : ℤ) - 1) height hh).1
        (clamp_range (⌊v⌋ + (j : ℤ) - 1) height hh).2
        (Int.natCast_nonneg ch) (by omega)
    simp only [htex]
    rw [show List.range 4 = [0, 1, 2, 3] by decide]
    simp only [List.map_cons, List.map_nil, List.sum_cons, List.sum_nil]
    have hkx := cubic_weight_sum B C hfu1 hfu2
    have hky := cubic_weight_sum B C hfv1 hfv2
    linear_combination
      ((cubic_weight B C (v - ⌊v⌋) 0 + cubic_weight B C (v - ⌊v⌋) 1
        + cubic_weight B C (v - ⌊v⌋) 2 + cubic_weight B C (v - ⌊v⌋) 3) * V) * hkx
      + V * hky
  · intro fp rp hrp hden
    have hacc := ewa_accumulate_flat fp rp V hrp
    have hden2 : ewa_wsum fp ≠ 0 := by
      rw [hacc] at hden
      simpa using hden
    simp only [BLI_ewa_filter, hacc]
    rw [if_neg hden2]
    simp only [List.map_cons, List.map_nil]
    have hdiv : ewa_wsum fp * V / ewa_wsum fp = V := by
      rw [mul_comm, mul_div_assoc, div_self hden2, mul_one]
    rw [hdiv]

/-- C4 counterexample: under `Border` wrap a bilinear footprint straddling
the image edge loses the weight of its out-of-bounds texels — a flat all-ones
2x2 single-channel buffer sampled at the in-bounds coordinate
`u = 3/2, v = 1/2` yields 1/2, not 1. -/
theorem flat_field_border_bilinear_cex :
    (0 : ℚ) ≤ 3/2 ∧ (3/2 : ℚ) < 2 ∧ (0 : ℚ) ≤ 1/2 ∧ (1/2 : ℚ) < 2 ∧
    interpolate_bilinear_wrapmode_fl (fun _ => 1) 2 2 1 (3/2) (1/2)
      InterpWrapMode.Border InterpWrapMode.Border = [1/2] ∧
    interpolate_bilinear_wrapmode_fl (fun _ => 1) 2 2 1 (3/2) (1/2)
      InterpWrapMode.Border InterpWrapMode.Border ≠ List.replicate 1 1 := by
  have hfu : ⌊(3/2 : ℚ)⌋ = 1 := by norm_num
  have hfv : ⌊(1/2 : ℚ)⌋ = 0 := by norm_num
  have h1n : Int.toNat 1 = 1 := rfl
  have hval : interpolate_bilinear_wrapmode_fl (fun _ => 1) 2 2 1 (3/2) (1/2)
      InterpWrapMode.Border InterpWrapMode.Border = [1/2] := by
    rw [interpolate_bilinear_wrapmode_fl, hfu, hfv]
    norm_num [sample_or_zero, resolve_index, List.range_succ, h1n,
      List.getD_cons_zero, List.getD_cons_succ, List.getElem?_cons_zero,
      List.getElem?_cons_succ, Option.getD_some, Option.map_some']
  refine ⟨by norm_num, by norm_num, by norm_num, by norm_num, hval, ?_⟩
  rw [hval]
  intro hcon
  have : (1/2 : ℚ) = 1 := List.head_eq_of_cons_eq hcon
  norm_num at this

/-- Witness for C4 on a flat 2x2 buffer (byte value 7, float value 3, one
float channel) at the in-bounds coordinate `(1/2, 1/2)`. -/
theorem flat_field_invariance_witness :
    ((0 : ℤ) < 2 ∧ (0 : ℤ) < 2 ∧ (0 : ℤ) < 1 ∧
     (0 : ℚ) ≤ 1/2 ∧ (1/2 : ℚ) < ((2 : ℤ) : ℚ) ∧
     (0 : ℚ) ≤ 1/2 ∧ (1/2 : ℚ) < ((2 : ℤ) : ℚ)) ∧
    (interpolate_nearest_border_byte (fun _ => 7) 2 2 (1/2) (1/2) = [7, 7, 7, 7] ∧
     interpolate_nearest_byte (fun _ => 7) 2 2 (1/2) (1/2) = [7, 7, 7, 7] ∧
     interpolate_nearest_wrap_byte (fun _ => 7) 2 2 (1/2) (1/2) = [7, 7, 7, 7] ∧
     interpolate_nearest_border_fl (fun _ => 3) 2 2 1 (1/2) (1/2)
       = List.replicate (Int.toNat 1) 3 ∧
     interpolate_nearest_fl (fun _ => 3) 2 2 1 (1/2) (1/2)
       = List.replicate (Int.toNat 1) 3 ∧
     interpolate_nearest_wrap_fl (fun _ => 3) 2 2 1 (1/2) (1/2)
       = List.replicate (Int.toNat 1) 3 ∧
     (∀ wu wv : InterpWrapMode, wu ≠ InterpWrapMode.Border → wv ≠ InterpWrapMode.Border →
       interpolate_bilinear_wrapmode_fl (fun _ => 3) 2 2 1 (1/2) (1/2) wu wv
         = List.replicate (Int.toNat 1) 3) ∧
     (∀ B C : ℚ, interpolate_cubic_fl B C (fun _ => 3) 2 2 1 (1/2) (1/2)
       = List.replicate (Int.toNat 1) 3) ∧
     (∀ (fp : List (ℤ × ℤ × ℚ)) (rp : ℤ → ℤ → List ℚ),
       (∀ x y : ℤ, rp x y = [3, 3, 3, 3]) →
       (ewa_accumulate fp rp).2 ≠ 0 →
       BLI_ewa_filter fp rp = [3, 3, 3, 3])) := by
  have hbb : ∀ x y i : ℤ, 0 ≤ x → x < 2 → 0 ≤ y → y < 2 → 0 ≤ i → i < 4 →
      (fun _ : ℤ => (7 : ℕ)) ((2 * y + x) * 4 + i) = 7 :=
    fun _ _ _ _ _ _ _ _ _ => rfl
  have hbf : ∀ x y i : ℤ, 0 ≤ x → x < 2 → 0 ≤ y → y < 2 → 0 ≤ i → i < 1 →
      (fun _ : ℤ => (3 : ℚ)) ((2 * y + x) * 1 + i) = 3 :=
    fun _ _ _ _ _ _ _ _ _ => rfl
  refine ⟨⟨by decide, by decide, by decide, by norm_num, by norm_num,
    by norm_num, by norm_num⟩, ?_⟩
  exact flat_field_invariance (fun _ => 7) (fun _ => 3) 2 2 1 (1/2) (1/2) 3 7
    (by decide) (by decide) (by decide) (by norm_num) (by norm_num)
    (by norm_num) (by norm_num) hbb hbf

/-- C8: sampling does not mutate the pixel buffer.  In the memory-level
embedding the only stores are the output writes, so when the output region is
disjoint from the buffer region every buffer address holds the same value
after the call as before it (clamp-mode float sampler and border-mode byte
sampler, the entry points the claim names). -/
theorem samplers_preserve_buffer (mf : ℤ → ℚ) (mb : ℤ → ℕ)
    (bufF outF bufB outB width height components : ℤ) (u v : ℚ)
    (hw : 0 < width) (hh : 0 < height) (hc : 0 < components)
    (hdf : ∀ a : ℤ, bufF ≤ a → a < bufF + width * height * components →
      a < outF ∨ outF + components ≤ a)
    (hdb : ∀ a : ℤ, bufB ≤ a → a < bufB + width * height * 4 →
      a < outB ∨ outB + 4 ≤ a) :
    (∀ a : ℤ, bufF ≤ a → a < bufF + width * height * components →
      interpolate_nearest_fl_mem mf bufF outF width height components u v a = mf a) ∧
    (∀ a : ℤ, bufB ≤ a → a < bufB + width * height * 4 →
      interpolate_nearest_border_byte_mem mb bufB outB width height u v a = mb a) := by
  constructor
  · intro a ha1 ha2
    rw [interpolate_nearest_fl_mem]
    apply storeList_untouched
    simp only [List.length_map, List.length_range]
    rcases hdf a ha1 ha2 with h | h
    · exact Or.inl h
    · right
      omega
  · intro a ha1 ha2
    rw [interpolate_nearest_border_byte_mem]
    by_cases hcond : truncToInt u < 0 ∨ width ≤ truncToInt u
        ∨ truncToInt v < 0 ∨ height ≤ truncToInt v
    · rw [if_pos hcond]
      apply storeList_untouched
      simp only [List.length_cons, List.length_nil]
      rcases hdb a ha1 ha2 with h | h
      · exact Or.inl h
      · right
        omega
    · rw [if_neg hcond]
      apply storeList_untouched
      simp only [List.length_cons, List.length_nil]
      rcases hdb a ha1 ha2 with h | h
      · exact Or.inl h
      · right
        omega

/-- Witness for C8 on a 1x1 buffer at address 0 with the output at
address 10. -/
theorem samplers_preserve_buffer_witness :
    (∀ a : ℤ, (0 : ℤ) ≤ a → a < 0 + 1 * 1 * 1 → a < 10 ∨ 10 + 1 ≤ a) ∧
    (∀ a : ℤ, (0 : ℤ) ≤ a → a < 0 + 1 * 1 * 4 → a < 10 ∨ 10 + 4 ≤ a) ∧
    ((∀ a : ℤ, (0 : ℤ) ≤ a → a < 0 + 1 * 1 * 1 →
       interpolate_nearest_fl_mem (fun _ => 0) 0 10 1 1 1 0 0 a = 0) ∧
     (∀ a : ℤ, (0 : ℤ) ≤ a → a < 0 + 1 * 1 * 4 →
       interpolate_nearest_border_byte_mem (fun _ => 0) 0 10 1 1 0 0 a = 0)) := by
  have hdf : ∀ a : ℤ, (0 : ℤ) ≤ a → a < 0 + 1 * 1 * 1 → a < 10 ∨ 10 + 1 ≤ a :=
    fun a h1 h2 => Or.inl (by omega)
  have hdb : ∀ a : ℤ, (0 : ℤ) ≤ a → a < 0 + 1 * 1 * 4 → a < 10 ∨ 10 + 4 ≤ a :=
    fun a h1 h2 => Or.inl (by omega)
  exact ⟨hdf, hdb,
    samplers_preserve_buffer (fun _ => 0) (fun _ => 0) 0 10 0 10 1 1 1 0 0
      (by decide) (by decide) (by decide) hdf hdb⟩

/-- Witness for C9 on a 1x1 buffer. -/
theorem fixed4_overloads_match_witness :
    (0 : ℤ) < 1 ∧
    (interpolate_nearest_border_byte4 (fun _ => 3) 1 1 0 0
       = interpolate_nearest_border_byte (fun _ => 3) 1 1 0 0 ∧
     interpolate_nearest_border_fl4 (fun _ => 2) 1 1 0 0
       = interpolate_nearest_border_fl (fun _ => 2) 1 1 4 0 0 ∧
     interpolate_nearest_fl4 (fun _ => 2) 1 1 0 0
       = interpolate_nearest_fl (fun _ => 2) 1 1 4 0 0 ∧
     interpolate_nearest_wrap_fl4 (fun _ => 2) 1 1 0 0
       = interpolate_nearest_wrap_fl (fun _ => 2) 1 1 4 0 0 ∧
     (interpolate_nearest_border_byte4 (fun _ => 3) 1 1 0 0).length = 4 ∧
     (interpolate_nearest_border_fl4 (fun _ => 2) 1 1 0 0).length = 4 ∧
     (interpolate_nearest_fl4 (fun _ => 2) 1 1 0 0).length = 4 ∧
     (interpolate_nearest_wrap_fl4 (fun _ => 2) 1 1 0 0).length = 4) :=
  ⟨by decide,
   fixed4_overloads_match (fun _ => 3) (fun _ => 2) 1 1 0 0 (by decide) (by decide)⟩

/-- C10: in the repeat-mode nearest samplers, for positive width, height and
channel count, the per-axis indices obtained by truncating the floored-modulo
wrapped coordinates always lie in `[0, width)` and `[0, height)` — so the
in-range assertion in the source never fires — and every flat offset the
sampler reads lies within the pixel buffer `[0, width*height*components)`. -/
theorem wrap_nearest_read_in_bounds (width height components : ℤ) (u v : ℚ)
    (hw : 0 < width) (hh : 0 < height) (hc : 0 < components) :
    (0 ≤ wrap_index u width ∧ wrap_index u width < width ∧
     0 ≤ wrap_index v height ∧ wrap_index v height < height) ∧
    (∀ i : ℤ, 0 ≤ i → i < components →
      0 ≤ (width * wrap_index v height + wrap_index u width) * components + i ∧
      (width * wrap_index v height + wrap_index u width) * components + i
        < width * height * components) := by
  obtain ⟨hx0, hxw⟩ := wrap_index_range width hw u
  obtain ⟨hy0, hyh⟩ := wrap_index_range height hh v
  refine ⟨⟨hx0, hxw, hy0, hyh⟩, ?_⟩
  intro i hi0 hic
  have h1 : 0 ≤ width * wrap_index v height := mul_nonneg hw.le hy0
  have h2 : 0 ≤ (width * wrap_index v height + wrap_index u width) * components :=
    mul_nonneg (by linarith) hc.le
  have hxy1 : width * wrap_index v height ≤ width * (height - 1) :=
    mul_le_mul_of_nonneg_left (by omega) hw.le
  have hdist : width * (height - 1) = width * height - width := by ring
  have hstep : width * wrap_index v height + wrap_index u width + 1 ≤ width * height := by
    linarith
  have hmul : (width * wrap_index v height + wrap_index u width + 1) * components
      ≤ width * height * components :=
    mul_le_mul_of_nonneg_right hstep hc.le
  have hexp : (width * wrap_index v height + wrap_index u width + 1) * components
      = (width * wrap_index v height + wrap_index u width) * components + components := by
    ring
  exact ⟨by linarith, by linarith⟩

/-- Witness for C10 at `u = -7/2, v = 5/3` on a 2x3 single-channel buffer. -/
theorem wrap_nearest_read_in_bounds_witness :
    (0 : ℤ) < 2 ∧ (0 : ℤ) < 3 ∧ (0 : ℤ) < 1 ∧
    ((0 ≤ wrap_index (-7/2) 2 ∧ wrap_index (-7/2) 2 < 2 ∧
      0 ≤ wrap_index (5/3) 3 ∧ wrap_index (5/3) 3 < 3) ∧
     (∀ i : ℤ, 0 ≤ i → i < 1 →
       0 ≤ (2 * wrap_index (5/3) 3 + wrap_index (-7/2) 2) * 1 + i ∧
       (2 * wrap_index (5/3) 3 + wrap_index (-7/2) 2) * 1 + i < 2 * 3 * 1)) :=
  ⟨by decide, by decide, by decide,
   wrap_nearest_read_in_bounds 2 3 1 (-7/2) (5/3) (by decide) (by decide) (by decide)⟩
